import Mathlib

/-!
Shallow embedding of `scripts/generate_function_wiki.py`: a multi-language
source-signature indexer.  Python strings are modelled as `List Char`
(ASCII fragment: the character classes `\s` and `\w` and the methods
`str.split` / `str.strip` are modelled over their ASCII behaviour, which is
all that the inputs of this tool exercise).  File-system reads and the two
`subprocess` invocations of git are modelled as explicit inputs: a file is a
list of its lines (the result of `splitlines`), and each git call is an
`Option (List Str)` whose `none` case models the `except Exception` branch
(non-zero exit, missing binary, or not a repository).
-/

namespace FunctionWiki

/-- Python strings, modelled as lists of characters. -/
abbrev Str := List Char

/-- Coerce a Lean string literal to the model type. -/
def strD (x : String) : Str := x.data

/-- The body-opening brace character. -/
def lbraceC : Char := Char.ofNat 123

/-- The backquote character used by the Markdown renderer. -/
def bqC : Char := Char.ofNat 96

/-- Python whitespace (`str.split()`, `str.strip()`, regex `\s`): the six
ASCII whitespace characters space, tab, newline, carriage return, vertical
tab and form feed. -/
def isPySpace (c : Char) : Bool :=
  c == ' ' || c == '\t' || c == '\n' || c == '\r' || c == Char.ofNat 11 || c == Char.ofNat 12

/-- Regex `\w`: ASCII letters, digits and underscore. -/
def isWordC (c : Char) : Bool := c.isAlpha || c.isDigit || c == '_'

/-- Regex `[A-Za-z_]`: first character of a shell identifier. -/
def isIdentStartC (c : Char) : Bool := c.isAlpha || c == '_'

/-- `str.lstrip()`: drop leading whitespace. -/
def lstrip (t : Str) : Str := t.dropWhile isPySpace

/-- `str.rstrip()`: drop trailing whitespace. -/
def rstrip (t : Str) : Str := (t.reverse.dropWhile isPySpace).reverse

/-- `str.strip()`: drop whitespace at both ends. -/
def pyStrip (t : Str) : Str := rstrip (lstrip t)

/-- Worker for `str.split()` (no separator argument): `cur` is the current
word accumulated in reverse. -/
def pyWordsGo : Str → Str → List Str
  | cur, [] => if cur.isEmpty then [] else [cur.reverse]
  | cur, c :: t =>
    if isPySpace c then
      if cur.isEmpty then pyWordsGo [] t else cur.reverse :: pyWordsGo [] t
    else pyWordsGo (c :: cur) t

/-- `str.split()`: maximal runs of non-whitespace characters, in order. -/
def pyWords (t : Str) : List Str := pyWordsGo [] t

/-- `" ".join(ws)`. -/
def joinSp : List Str → Str
  | [] => []
  | [w] => w
  | w :: x :: xs => w ++ ' ' :: joinSp (x :: xs)

/-- `sig = " ".join(sig.split())`: collapse whitespace runs to single
spaces and trim the ends. -/
def collapse (sig : Str) : Str := joinSp (pyWords sig)

/-- `if "{" in sig: sig = sig.split("{", 1)[0].strip()`. -/
def braceCut (sig : Str) : Str :=
  if lbraceC ∈ sig then pyStrip (sig.takeWhile (fun c => !(c == lbraceC))) else sig

/-- `if sig.endswith(":"): sig = sig[:-1].strip()`. -/
def colonCut (sig : Str) : Str :=
  if sig.getLast? = some ':' then pyStrip sig.dropLast else sig

/-- `clean_signature` from the source: collapse whitespace, truncate at the
first body-opening brace, then strip one trailing colon. -/
def clean_signature (sig : Str) : Str := colonCut (braceCut (collapse sig))

/-!
### The declaration-head regular expressions

Each of the patterns below is applied with `re.match`, i.e. anchored at the
start of the line only (`SHELL_PATTERN_A/B` are additionally anchored at the
end with `$`).  All the patterns are deterministic in the sense that
greedy maximal-munch matching is equivalent to full backtracking search:
every `X*`/`X+` piece is followed by a piece whose first character cannot
belong to the class of `X`, the branches of each alternation start with
distinct literals none of which is a prefix of another, and the optional
parenthesis group of an attribute either finds its closing parenthesis or
fails as a whole.  The functions below therefore implement maximal-munch
consumption directly.
-/

/-- The modifier keywords of `SWIFT_PATTERN`, in the alternation's order.
No keyword is a prefix of another, so at most one of them can match at any
position. -/
def swiftModifiers : List Str :=
  ["public", "private", "fileprivate", "internal", "open", "static", "class",
   "override", "mutating", "nonmutating", "convenience", "required", "final",
   "actor", "indirect", "isolated", "nonisolated", "distributed", "prefix",
   "postfix", "infix", "lazy", "weak", "unowned"].map String.data

/-- The optional argument list of an attribute: `(?:\([^\)]*\))?`.  The
group consumes `(` up to and including the first `)` when one exists;
otherwise the optional group matches the empty string. -/
def attrParen (t : Str) : Str :=
  match t with
  | c :: rest =>
    if c == '(' && rest.contains ')' then (rest.dropWhile (fun x => !(x == ')'))).drop 1
    else t
  | [] => t

/-- One step of `(?:@\w+(?:\([^\)]*\))?\s*)*`: fuelled loop; each
iteration consumes at least two characters (`@` plus one word character),
so fuel equal to the length of the input always suffices. -/
def skipAttrsGo : Nat → Str → Str
  | 0, t => t
  | Nat.succ n, t =>
    match t with
    | [] => []
    | c :: rest =>
      if c == '@' && (match rest with | d :: _ => isWordC d | [] => false) then
        skipAttrsGo n ((attrParen (rest.dropWhile isWordC)).dropWhile isPySpace)
      else c :: rest

/-- `(?:@\w+(?:\([^\)]*\))?\s*)*`. -/
def skipAttrs (t : Str) : Str := skipAttrsGo t.length t

/-- One iteration of `(?:(?:public|...|unowned)\s+)*`: if some modifier
keyword is a literal prefix followed by at least one whitespace character,
consume the keyword and the whitespace run. -/
def tryModifier (t : Str) : Option Str :=
  swiftModifiers.findSome? (fun kw =>
    if kw.isPrefixOf t then
      match t.drop kw.length with
      | c :: r => if isPySpace c then some ((c :: r).dropWhile isPySpace) else none
      | [] => none
    else none)

/-- Fuelled modifier loop; every successful iteration consumes at least two
characters, so fuel equal to the length of the input always suffices. -/
def skipModifiersGo : Nat → Str → Str
  | 0, t => t
  | Nat.succ n, t =>
    match tryModifier t with
    | some r => skipModifiersGo n r
    | none => t

/-- `(?:(?:public|...|unowned)\s+)*`. -/
def skipModifiersL (t : Str) : Str := skipModifiersGo t.length t

/-- `kw\b`: the literal keyword followed by a word boundary. -/
def kwWordB (kw : Str) (t : Str) : Bool :=
  kw.isPrefixOf t &&
    (match t.drop kw.length with | [] => true | c :: _ => !(isWordC c))

/-- `SWIFT_PATTERN`: leading whitespace, attributes, modifier keywords,
then `(func|init|deinit)\b`. -/
def swiftMatch (line : Str) : Bool :=
  let t := skipModifiersL (skipAttrs (line.dropWhile isPySpace))
  kwWordB (strD "func") t || kwWordB (strD "init") t || kwWordB (strD "deinit") t

/-- The continuation `\s+\w+\s*\(` of `PYTHON_PATTERN` after the `def`
keyword. -/
def pyDefTail (r : Str) : Bool :=
  match r with
  | c :: _ =>
    isPySpace c &&
      (match r.dropWhile isPySpace with
       | d :: _ =>
         isWordC d &&
           (match ((r.dropWhile isPySpace).dropWhile isWordC).dropWhile isPySpace with
            | e :: _ => e == '('
            | [] => false)
       | [] => false)
  | [] => false

/-- `PYTHON_PATTERN`: `^\s*(?:async\s+def|def)\s+\w+\s*\(`. -/
def pythonMatch (line : Str) : Bool :=
  let t := line.dropWhile isPySpace
  ((strD "async").isPrefixOf t &&
    (match t.drop 5 with
     | c :: _ =>
       isPySpace c && (strD "def").isPrefixOf (t.drop 5 |>.dropWhile isPySpace) &&
         pyDefTail ((t.drop 5 |>.dropWhile isPySpace).drop 3)
     | [] => false)) ||
  ((strD "def").isPrefixOf t && pyDefTail (t.drop 3))

/-- A shell identifier `[A-Za-z_][A-Za-z0-9_]*` followed by the rest of the
pattern; returns the remainder after the identifier, or `none`. -/
def shellIdent (t : Str) : Option Str :=
  match t with
  | c :: rest => if isIdentStartC c then some (rest.dropWhile isWordC) else none
  | [] => none

/-- `\{\s*$`: an opening brace, trailing whitespace, end of line. -/
def braceEnd (t : Str) : Bool :=
  match t with
  | c :: rest => c == lbraceC && (rest.dropWhile isPySpace).isEmpty
  | [] => false

/-- `SHELL_PATTERN_A`: `^\s*function\s+[A-Za-z_][A-Za-z0-9_]*\s*\{\s*$`. -/
def shellMatchA (t0 : Str) : Bool :=
  let t := t0.dropWhile isPySpace
  (strD "function").isPrefixOf t &&
    (match t.drop 8 with
     | c :: _ =>
       isPySpace c &&
         (match shellIdent (t.drop 8 |>.dropWhile isPySpace) with
          | some r => braceEnd (r.dropWhile isPySpace)
          | none => false)
     | [] => false)

/-- `SHELL_PATTERN_B`: `^\s*[A-Za-z_][A-Za-z0-9_]*\s*\(\)\s*\{\s*$`. -/
def shellMatchB (t0 : Str) : Bool :=
  match shellIdent (t0.dropWhile isPySpace) with
  | some r =>
    (match r.dropWhile isPySpace with
     | '(' :: ')' :: r2 => braceEnd (r2.dropWhile isPySpace)
     | _ => false)
  | none => false

/-!
### The per-language extractors

`parse_swift` / `parse_python` scan the line list with an outer index that
advances by exactly one per iteration; on a pattern match they accumulate a
multi-line signature with a bounded inner lookahead.  The inner loops are
modelled on the suffix of lines after the matched one, carrying
`cnt = len(sig_lines)`, the number of lines accumulated so far.
-/

/-- A detected declaration (the `FunctionEntry` dataclass). -/
structure FunctionEntry where
  path : Str
  line : Nat
  signature : Str
  language : Str
deriving DecidableEq

/-- The peek block of `parse_swift`'s inner loop: when the appended line
ends with `)`/`throws`/`rethrows`, the source peeks at the next line
(`lines[j + 1]`, when it exists) and breaks if it starts with the brace —
and then breaks anyway on the unconditional `break` that follows, so both
branches of the peek stop the accumulation without consuming the peeked
line. -/
def peekBrace (rs : List Str) : List Str :=
  match rs with
  | l2 :: _ => if [lbraceC].isPrefixOf (pyStrip l2) then [] else []
  | [] => []

/-- The inner accumulation loop of `parse_swift`
(`while j < len(lines) and len(sig_lines) < 8`), returning the lines
appended after the matched head line.  `last` is `sig_lines[-1]`. -/
def swiftAccumGo : Str → List Str → Nat → List Str
  | _, [], _ => []
  | last, l :: rs, cnt =>
    if 8 ≤ cnt then []
    else if last.contains lbraceC then []
    else
      let nxt := pyStrip l
      if nxt.isEmpty || (strD "//").isPrefixOf nxt then []
      else
        nxt ::
          (if nxt.contains lbraceC then []
           else if (strD ")").isSuffixOf nxt || (strD "throws").isSuffixOf nxt ||
                   (strD "rethrows").isSuffixOf nxt then
             peekBrace rs
           else swiftAccumGo nxt rs (cnt + 1))

/-- The full list `sig_lines` accumulated for a Swift declaration whose
matched head line is `l` and whose following lines are `rest`. -/
def swiftSigLines (l : Str) (rest : List Str) : List Str :=
  pyStrip l :: swiftAccumGo (pyStrip l) rest 1

/-- Outer loop of `parse_swift`: one iteration per line. -/
def parseSwiftGo (path : Str) : List Str → Nat → List FunctionEntry
  | [], _ => []
  | l :: rest, i =>
    (if swiftMatch l then
       [{ path := path, line := i + 1,
          signature := clean_signature (joinSp (swiftSigLines l rest)),
          language := strD "Swift" }]
     else []) ++ parseSwiftGo path rest (i + 1)

/-- `parse_swift(path)` over the lines of the file. -/
def parse_swift (path : Str) (lines : List Str) : List FunctionEntry :=
  parseSwiftGo path lines 0

/-- The inner accumulation loop of `parse_python`. -/
def pyAccumGo : Str → List Str → Nat → List Str
  | _, [], _ => []
  | last, l :: rs, cnt =>
    if 8 ≤ cnt then []
    else if last.getLast? = some ':' then []
    else
      let nxt := pyStrip l
      if nxt.isEmpty || (strD "#").isPrefixOf nxt then []
      else nxt :: (if nxt.getLast? = some ':' then [] else pyAccumGo nxt rs (cnt + 1))

/-- The full list `sig_lines` accumulated for a Python declaration. -/
def pySigLines (l : Str) (rest : List Str) : List Str :=
  pyStrip l :: pyAccumGo (pyStrip l) rest 1

/-- Outer loop of `parse_python`: one iteration per line. -/
def parsePythonGo (path : Str) : List Str → Nat → List FunctionEntry
  | [], _ => []
  | l :: rest, i =>
    (if pythonMatch l then
       [{ path := path, line := i + 1,
          signature := clean_signature (joinSp (pySigLines l rest)),
          language := strD "Python" }]
     else []) ++ parsePythonGo path rest (i + 1)

/-- `parse_python(path)` over the lines of the file. -/
def parse_python (path : Str) (lines : List Str) : List FunctionEntry :=
  parsePythonGo path lines 0

/-- `parse_shell(path)`: single-line matches only (`enumerate(start=1)`). -/
def parse_shell (path : Str) (lines : List Str) : List FunctionEntry :=
  (List.enumFrom 1 lines).filterMap (fun p =>
    let stripped := pyStrip p.2
    if shellMatchA stripped || shellMatchB stripped then
      some { path := path, line := p.1, signature := clean_signature stripped,
             language := strD "Shell" }
    else none)

/-!
### Path handling, dispatch and the Index Builder
-/

/-- The final component of a (POSIX) path. -/
def pathName (p : Str) : Str := (p.reverse.takeWhile (fun c => !(c == '/'))).reverse

/-- `pathlib.Path(p).suffix`: the extension of the final component,
including the dot; empty when the last dot is the first or the last
character of the name (dotfiles and trailing dots have no suffix). -/
def pathSuffix (p : Str) : Str :=
  let nm := pathName p
  let aft := nm.reverse.takeWhile (fun c => !(c == '.'))
  if aft.length + 2 ≤ nm.length ∧ 1 ≤ aft.length then '.' :: aft.reverse else []

/-- `INCLUDE_EXTS`. -/
def includeExts : List Str :=
  [".swift", ".py", ".sh", ".bash", ".zsh"].map String.data

/-- `parse_file`: dispatch on the file extension. -/
def parse_file (path : Str) (lines : List Str) : List FunctionEntry :=
  if pathSuffix path = strD ".swift" then parse_swift path lines
  else if pathSuffix path = strD ".py" then parse_python path lines
  else parse_shell path lines

/-- The sort key `(e.path, e.line, e.signature)` of `collect_functions`,
as a lexicographic triple.  Python compares strings by code points and
tuples lexicographically, which is exactly this order. -/
def entryKey (e : FunctionEntry) : Lex ((List Char) × Lex (Nat × List Char)) :=
  toLex (e.path, toLex (e.line, e.signature))

/-- The entry order used by the final sort. -/
def entryLe (a b : FunctionEntry) : Prop := entryKey a ≤ entryKey b

instance : DecidableRel entryLe :=
  fun a b => (inferInstance : Decidable (entryKey a ≤ entryKey b))

instance : IsTotal FunctionEntry entryLe :=
  ⟨fun a b => le_total (entryKey a) (entryKey b)⟩

instance : IsTrans FunctionEntry entryLe :=
  ⟨fun _ _ _ hab hbc => le_trans hab hbc⟩

/-- `collect_functions`, over an abstract discovered tree: a list of
`(path, lines)` pairs (the result of Discovery plus file reads).  The
source iterates files in sorted path order and finally sorts the whole
collection by `(path, line, signature)`.  Python's `sorted` is a stable
sort by the given key, which coincides with the stable insertion sort used
here; the `try/except` around each file's read is invisible in the model
because file contents are given. -/
def collect_functions (tree : List (Str × List Str)) : List FunctionEntry :=
  ((List.insertionSort (fun a b : Str × List Str => a.1 ≤ b.1) tree).flatMap
    (fun pr => parse_file pr.1 pr.2)).insertionSort entryLe

/-!
### The Snapshot Differ
-/

/-- `defaultdict(list)` append: extend the list at `k` in place, keeping
key insertion order; create the key at the end when absent. -/
def ddAppend {α : Type} (m : List (Str × List α)) (k : Str) (v : α) :
    List (Str × List α) :=
  match m with
  | [] => [(k, [v])]
  | (k0, vs) :: rest =>
    if k0 = k then (k0, vs ++ [v]) :: rest else (k0, vs) :: ddAppend rest k v

/-- First-match association lookup (keys are unique in all maps built by
`ddAppend`). -/
def lookupA {α : Type} (m : List (Str × α)) (k : Str) : Option α :=
  match m with
  | [] => none
  | (k0, v) :: rest => if k0 = k then some v else lookupA rest k

/-- `DIFF_FILE_PATTERN` = `^\+\+\+ b/(.+)$`: returns the captured path. -/
def diffFile (raw : Str) : Option Str :=
  if (strD "+++ b/").isPrefixOf raw ∧ 6 < raw.length then some (raw.drop 6) else none

/-- `is_func_signature` from `find_changes_in_worktree`. -/
def is_func_signature (text : Str) (path : Str) : Bool :=
  if (strD ".swift").isSuffixOf path then swiftMatch text
  else if (strD ".py").isSuffixOf path then pythonMatch text
  else shellMatchA (pyStrip text) || shellMatchB (pyStrip text)

/-- State of the diff scan: the current file and the two `defaultdict`s. -/
structure DiffState where
  cur : Option Str
  added : List (Str × List Str)
  removed : List (Str × List Str)

/-- One line of the diff-parsing loop of `find_changes_in_worktree`. -/
def scanDiffLine (st : DiffState) (raw : Str) : DiffState :=
  match diffFile raw with
  | some f => { st with cur := some f }
  | none =>
    match st.cur with
    | none => st
    | some file =>
      if !(includeExts.contains (pathSuffix file)) then st
      else if (strD "+++").isPrefixOf raw || (strD "---").isPrefixOf raw ||
              (strD "@@").isPrefixOf raw then st
      else
        match raw with
        | '+' :: line =>
          if is_func_signature line file then
            { st with added := ddAppend st.added file (clean_signature (pyStrip line)) }
          else st
        | '-' :: line =>
          if is_func_signature line file then
            { st with removed := ddAppend st.removed file (clean_signature (pyStrip line)) }
          else st
        | _ => st

/-- The diff scan before deduplication. -/
def rawChanges (diffLines : List Str) : DiffState :=
  diffLines.foldl scanDiffLine ⟨none, [], []⟩

/-- The `dedupe` helper: seen-set filtering, preserving order. -/
def dedupeGo (seen : List Str) : List Str → List Str
  | [] => []
  | v :: vs => if seen.contains v then dedupeGo seen vs else v :: dedupeGo (v :: seen) vs

/-- `dedupe(values)`. -/
def dedupe (l : List Str) : List Str := dedupeGo [] l

/-- `find_changes_in_worktree`: the git invocation is an explicit input,
`none` standing for the `except Exception` branch, which returns two empty
mappings. -/
def find_changes_in_worktree (gitDiff : Option (List Str)) :
    (List (Str × List Str)) × (List (Str × List Str)) :=
  match gitDiff with
  | none => ([], [])
  | some ls =>
    ((rawChanges ls).added.map (fun p => (p.1, dedupe p.2)),
     (rawChanges ls).removed.map (fun p => (p.1, dedupe p.2)))

/-- `untracked_function_files`: `none` models the failing `git status`
call, which returns an empty mapping. -/
def untracked_function_files (gitStatus : Option (List Str))
    (entries : List FunctionEntry) : List (Str × List FunctionEntry) :=
  match gitStatus with
  | none => []
  | some rows =>
    let un : List Str := rows.filterMap (fun row =>
      if (strD "?? ").isPrefixOf row then
        let p := pyStrip (row.drop 3)
        if includeExts.contains (pathSuffix p) then some p else none
      else none)
    entries.foldl (fun g e => if un.contains e.path then ddAppend g e.path e else g) []

/-!
### The Report Writer (change document)
-/

/-- The `(path, signature) -> entry` dictionary of `write_updates`: a
Python dict comprehension, so a later entry with the same key overwrites an
earlier one. -/
def indexed (entries : List FunctionEntry) : Str × Str → Option FunctionEntry :=
  entries.foldl
    (fun m e => fun k => if k = (e.path, e.signature) then some e else m k)
    (fun _ => none)

/-- Decimal rendering of a line number. -/
def numStr (n : Nat) : Str := Nat.toDigits 10 n

/-- ``f"- `L{line}` `{sig}`"``. -/
def lineWithNum (n : Nat) (sig : Str) : Str :=
  strD "- " ++ bqC :: 'L' :: (numStr n ++ bqC :: ' ' :: bqC :: (sig ++ [bqC]))

/-- ``f"- `{sig}`"``. -/
def lineBare (sig : Str) : Str := strD "- " ++ bqC :: (sig ++ [bqC])

/-- ``f"### `{file_path}`"``. -/
def fileHeading (p : Str) : Str := strD "### " ++ bqC :: (p ++ [bqC])

/-- The line emitted for one added signature: cross-referenced against the
Index by `(path, signature)`, falling back to the bare signature. -/
def sigLineFor (entries : List FunctionEntry) (fp sig : Str) : Str :=
  match indexed entries (fp, sig) with
  | some e => lineWithNum e.line sig
  | none => lineBare sig

/-- `sorted(...)` over dictionary keys (Python string order). -/
def sortKeys (ks : List Str) : List Str := ks.insertionSort (fun a b => a ≤ b)

/-- The `## Added or Updated Signatures` section (empty list when the
`added` mapping is empty, since the source guards the section with
`if added:`). -/
def addedSection (added : List (Str × List Str)) (entries : List FunctionEntry) :
    List Str :=
  if added.isEmpty then []
  else
    strD "## Added or Updated Signatures" :: strD "" ::
      (sortKeys (added.map Prod.fst)).flatMap (fun fp =>
        fileHeading fp :: strD "" ::
          (((lookupA added fp).getD []).map (fun sg => sigLineFor entries fp sg) ++
            [strD ""]))

/-- The `## Removed Signatures` section. -/
def removedSection (removed : List (Str × List Str)) : List Str :=
  if removed.isEmpty then []
  else
    strD "## Removed Signatures" :: strD "" ::
      (sortKeys (removed.map Prod.fst)).flatMap (fun fp =>
        fileHeading fp :: strD "" ::
          (((lookupA removed fp).getD []).map lineBare ++ [strD ""]))

/-- The `## Functions in Untracked Source Files` section. -/
def untrackedSection (unt : List (Str × List FunctionEntry)) : List Str :=
  if unt.isEmpty then []
  else
    strD "## Functions in Untracked Source Files" :: strD "" ::
      (sortKeys (unt.map Prod.fst)).flatMap (fun fp =>
        fileHeading fp :: strD "" ::
          (((lookupA unt fp).getD []).map (fun e => lineWithNum e.line e.signature) ++
            [strD ""]))

/-- The fixed header of the change document (`now` is the timestamp). -/
def updatesHeader (now : Str) : List Str :=
  [strD "# Function Updates", strD "",
   strD "This page tracks function-level changes currently present in the working tree compared to `HEAD`.",
   strD "",
   strD "Generated: " ++ bqC :: (now ++ [bqC]), strD "",
   strD "Regenerate with: `scripts/generate_function_wiki.py`", strD ""]

/-- The lines of `write_updates` (the final `write_text` with its trailing
`rstrip` is file I/O and not modelled). -/
def write_updates_lines (now : Str) (entries : List FunctionEntry)
    (gitDiff gitStatus : Option (List Str)) : List Str :=
  let ar := find_changes_in_worktree gitDiff
  let unt := untracked_function_files gitStatus entries
  updatesHeader now ++
    (if ar.1.isEmpty ∧ ar.2.isEmpty ∧ unt.isEmpty then
       [strD "No function signature changes detected in the current working tree."]
     else addedSection ar.1 entries ++ removedSection ar.2 ++ untrackedSection unt)

/-!
### Models written from the spec's and the claims' words

These definitions are *not* translations of the source; each follows the
natural-language text it is named after, for comparison with the source
embedding above.
-/

/-- Modelled from claim C2's words: accumulation stops when (a) the
accumulated text contains the brace, (b) a blank or comment-only line is
met, or (c) the current line ends with `)`/`throws`/`rethrows` *and* the
peeked next line starts with the brace; otherwise it continues. -/
def swiftAccumClaim : Str → List Str → Nat → List Str
  | _, [], _ => []
  | last, l :: rs, cnt =>
    if 8 ≤ cnt then []
    else if last.contains lbraceC then []
    else
      let nxt := pyStrip l
      if nxt.isEmpty || (strD "//").isPrefixOf nxt then []
      else
        nxt ::
          (if nxt.contains lbraceC then []
           else if ((strD ")").isSuffixOf nxt || (strD "throws").isSuffixOf nxt ||
                     (strD "rethrows").isSuffixOf nxt) &&
                   (match rs with
                    | l2 :: _ => [lbraceC].isPrefixOf (pyStrip l2)
                    | [] => false) then []
           else swiftAccumClaim nxt rs (cnt + 1))

/-- Modelled from the amended claim C2: as in the claim, but condition (c)
stops the accumulation whenever the line ends with `)`/`throws`/
`rethrows`, regardless of the peeked next line (which is never
consumed). -/
def swiftAccumAmended : Str → List Str → Nat → List Str
  | _, [], _ => []
  | last, l :: rs, cnt =>
    if 8 ≤ cnt then []
    else if last.contains lbraceC then []
    else
      let nxt := pyStrip l
      if nxt.isEmpty || (strD "//").isPrefixOf nxt then []
      else
        nxt ::
          (if nxt.contains lbraceC then []
           else if (strD ")").isSuffixOf nxt || (strD "throws").isSuffixOf nxt ||
                   (strD "rethrows").isSuffixOf nxt then []
           else swiftAccumAmended nxt rs (cnt + 1))

/-- Modelled from the spec's words for claim C6: deduplication keeps, in
first-seen order, the first occurrence of each value and drops the later
repeats. -/
def keepFirstOccs : List Str → List Str
  | [] => []
  | x :: xs => x :: keepFirstOccs (xs.filter (fun y => !(y == x)))
termination_by l => l.length
decreasing_by
  simp only [List.length_cons]
  exact Nat.lt_succ_of_le (List.length_filter_le _ _)

/-- A word list as produced by `str.split()`: every word is nonempty and
free of whitespace.  Used by the normalization lemmas. -/
def cleanWords (ws : List Str) : Prop :=
  ∀ w ∈ ws, w ≠ [] ∧ ∀ c ∈ w, isPySpace c = false

/-!
## Lemmas about the string primitives
-/

theorem dropWhile_eq_self_of (p : Char → Bool) (t : Str)
    (h : ∀ c ∈ t, p c = false) : t.dropWhile p = t := by
  cases t with
  | nil => rfl
  | cons c t => simp [List.dropWhile_cons, h c (List.mem_cons_self c t)]

theorem lstrip_eq_self (t : Str) (h : ∀ c ∈ t, isPySpace c = false) :
    lstrip t = t := dropWhile_eq_self_of _ _ h

theorem lstrip_cons_of_not_space {c : Char} (t : Str) (h : isPySpace c = false) :
    lstrip (c :: t) = c :: t := by
  simp [lstrip, List.dropWhile_cons, h]

theorem rstrip_eq_self (t : Str) (h : ∀ c ∈ t, isPySpace c = false) : rstrip t = t := by
  unfold rstrip
  rw [dropWhile_eq_self_of _ _ (fun c hc => h c (List.mem_reverse.mp hc)),
    List.reverse_reverse]

theorem pyStrip_eq_self (t : Str) (h : ∀ c ∈ t, isPySpace c = false) : pyStrip t = t := by
  unfold pyStrip
  rw [lstrip_eq_self t h, rstrip_eq_self t h]

theorem rstrip_append (u v : Str) :
    rstrip (u ++ v) = if rstrip v = [] then rstrip u else u ++ rstrip v := by
  unfold rstrip
  rw [List.reverse_append, List.dropWhile_append]
  by_cases h : v.reverse.dropWhile isPySpace = []
  · simp [h]
  · have h2 : (v.reverse.dropWhile isPySpace).isEmpty = false := by
      simpa [List.isEmpty_iff] using h
    have h3 : ¬(v.reverse.dropWhile isPySpace).reverse = [] := by simpa using h
    simp [h2, h3, List.reverse_append]

theorem rstrip_sublist (t : Str) : (rstrip t).Sublist t := by
  have h := (List.dropWhile_sublist (l := t.reverse) isPySpace).reverse
  simpa [rstrip] using h

theorem lstrip_sublist (t : Str) : (lstrip t).Sublist t := List.dropWhile_sublist _

theorem pyStrip_sublist (t : Str) : (pyStrip t).Sublist t :=
  ((rstrip_sublist (lstrip t)).trans (lstrip_sublist t))

theorem mem_of_mem_pyStrip {c : Char} {t : Str} (h : c ∈ pyStrip t) : c ∈ t :=
  (pyStrip_sublist t).subset h

theorem rstrip_single_space : rstrip [' '] = [] := rfl

/-- `pyStrip` of a nonempty whitespace-free word followed by a space and a
tail: the word survives, the separator survives iff the stripped tail is
nonempty. -/
theorem pyStrip_word_append (w T : Str) (hw : w ≠ [])
    (hns : ∀ c ∈ w, isPySpace c = false) :
    pyStrip (w ++ ' ' :: T) = if rstrip T = [] then w else w ++ ' ' :: rstrip T := by
  obtain ⟨c, w', rfl⟩ : ∃ c w', w = c :: w' := by
    cases w with
    | nil => exact absurd rfl hw
    | cons c w' => exact ⟨c, w', rfl⟩
  have hstep : pyStrip ((c :: w') ++ ' ' :: T) = rstrip ((c :: w') ++ ' ' :: T) := by
    unfold pyStrip
    rw [List.cons_append, lstrip_cons_of_not_space _ (hns c (List.mem_cons_self _ _)),
      ← List.cons_append]
  rw [hstep, rstrip_append]
  have hsp : rstrip (' ' :: T) = if rstrip T = [] then [] else ' ' :: rstrip T := by
    have h1 : (' ' :: T) = [' '] ++ T := rfl
    rw [h1, rstrip_append, rstrip_single_space]
    by_cases h : rstrip T = [] <;> simp [h]
  by_cases h : rstrip T = []
  · simp only [hsp, h, if_pos rfl, if_pos rfl]
    exact rstrip_eq_self _ hns
  · simp only [hsp, h, if_neg h]
    have h4 : ¬(' ' :: rstrip T) = ([] : Str) := by simp
    simp [if_neg h4]

/-!
## Words and joins
-/

theorem joinSp_cons_cons (w x : Str) (xs : List Str) :
    joinSp (w :: x :: xs) = w ++ ' ' :: joinSp (x :: xs) := rfl

theorem joinSp_ne_nil {x : Str} (xs : List Str) (hx : x ≠ []) : joinSp (x :: xs) ≠ [] := by
  cases xs with
  | nil => simpa [joinSp] using hx
  | cons y ys => simp [joinSp_cons_cons]

theorem joinSp_head? {x : Str} (xs : List Str) (hx : x ≠ []) :
    (joinSp (x :: xs)).head? = x.head? := by
  cases xs with
  | nil => rfl
  | cons y ys => rw [joinSp_cons_cons]; exact List.head?_append_of_ne_nil _ hx

theorem pyWordsGo_word : ∀ (w : Str), (∀ c ∈ w, isPySpace c = false) →
    ∀ (cur t : Str), pyWordsGo cur (w ++ t) = pyWordsGo (w.reverse ++ cur) t := by
  intro w
  induction w with
  | nil => intro _ cur t; simp
  | cons c w ih =>
    intro hns cur t
    have hc := hns c (List.mem_cons_self _ _)
    rw [List.cons_append]
    simp only [pyWordsGo, hc, Bool.false_eq_true, if_false]
    rw [ih (fun d hd => hns d (List.mem_cons_of_mem _ hd)) (c :: cur) t]
    congr 1
    simp [List.reverse_cons, List.append_assoc]

theorem isPySpace_space : isPySpace ' ' = true := rfl

theorem pyWords_join (ws : List Str) (h : cleanWords ws) : pyWords (joinSp ws) = ws := by
  induction ws with
  | nil => rfl
  | cons w tail ih =>
    obtain ⟨hw, hns⟩ := h w (List.mem_cons_self _ _)
    have htail : cleanWords tail := fun x hx => h x (List.mem_cons_of_mem _ hx)
    cases tail with
    | nil =>
      show pyWordsGo [] (joinSp [w]) = [w]
      have h1 : joinSp [w] = w ++ [] := by simp [joinSp]
      rw [h1, pyWordsGo_word w hns [] []]
      have h2 : (w.reverse ++ []).isEmpty = false := by
        simp [List.isEmpty_iff, hw]
      simp [pyWordsGo, h2, hw]
    | cons x xs =>
      show pyWordsGo [] (joinSp (w :: x :: xs)) = w :: x :: xs
      rw [joinSp_cons_cons, pyWordsGo_word w hns [] (' ' :: joinSp (x :: xs))]
      have h2 : (w.reverse ++ []).isEmpty = false := by
        simp [List.isEmpty_iff, hw]
      simp only [pyWordsGo, isPySpace_space, if_true, h2, Bool.false_eq_true, if_false]
      rw [List.append_nil, List.reverse_reverse]
      exact congrArg (w :: ·) (ih htail)

theorem pyWordsGo_clean : ∀ (t cur : Str), (∀ c ∈ cur, isPySpace c = false) →
    cleanWords (pyWordsGo cur t) := by
  intro t
  induction t with
  | nil =>
    intro cur hcur
    by_cases h : cur.isEmpty
    · simp [pyWordsGo, h, cleanWords]
    · simp only [pyWordsGo, h, Bool.false_eq_true, if_false]
      intro w hw
      have hw' : w = cur.reverse := by simpa using hw
      subst hw'
      refine ⟨by simpa [List.isEmpty_iff] using h, fun c hc => hcur c (List.mem_reverse.mp hc)⟩
  | cons c t ih =>
    intro cur hcur
    by_cases hc : isPySpace c = true
    · by_cases hcur0 : cur.isEmpty
      · simpa [pyWordsGo, hc, hcur0] using ih [] (by simp)
      · simp only [pyWordsGo, hc, if_true, hcur0, Bool.false_eq_true, if_false]
        intro w hw
        rcases List.mem_cons.mp hw with rfl | hw2
        · refine ⟨by simpa [List.isEmpty_iff] using hcur0,
            fun d hd => hcur d (List.mem_reverse.mp hd)⟩
        · exact ih [] (by simp) w hw2
    · have hc' : isPySpace c = false := by simpa using hc
      simp only [pyWordsGo, hc', Bool.false_eq_true, if_false]
      refine ih (c :: cur) (fun d hd => ?_)
      rcases List.mem_cons.mp hd with rfl | hd2
      · exact hc'
      · exact hcur d hd2

theorem pyWords_clean (t : Str) : cleanWords (pyWords t) :=
  pyWordsGo_clean t [] (by simp)

/-!
## The shape of `clean_signature` outputs
-/

theorem takeWhile_eq_self_of (p : Char → Bool) : ∀ (l : Str), (∀ c ∈ l, p c = true) →
    l.takeWhile p = l := by
  intro l
  induction l with
  | nil => intro _; rfl
  | cons c t ih =>
    intro h
    simp [List.takeWhile_cons, h c (List.mem_cons_self _ _),
      ih fun d hd => h d (List.mem_cons_of_mem _ hd)]

theorem pyStrip_eq_rstrip_of_head {T : Str}
    (h : ∀ c, T.head? = some c → isPySpace c = false) : pyStrip T = rstrip T := by
  cases T with
  | nil => rfl
  | cons c t => unfold pyStrip; rw [lstrip_cons_of_not_space _ (h c rfl)]

theorem cleanWords_singleton {u : Str} (hu : u ≠ []) (h : ∀ c ∈ u, isPySpace c = false) :
    cleanWords [u] := by
  intro w hw
  have hw' : w = u := by simpa using hw
  subst hw'
  exact ⟨hu, h⟩

theorem cleanWords_nil : cleanWords [] := by intro w hw; simp at hw

theorem cleanWords_cons {w : Str} {ws : List Str} (hw : w ≠ [])
    (hns : ∀ c ∈ w, isPySpace c = false) (h : cleanWords ws) : cleanWords (w :: ws) := by
  intro x hx
  rcases List.mem_cons.mp hx with rfl | hx2
  · exact ⟨hw, hns⟩
  · exact h x hx2

/-- A whitespace-free fragment strips to itself and forms a (possibly
empty) clean join. -/
theorem join_of_spacefree (u : Str) (h : ∀ c ∈ u, isPySpace c = false) :
    ∃ ws', cleanWords ws' ∧ pyStrip u = joinSp ws' := by
  by_cases hu : u = []
  · subst hu
    exact ⟨[], cleanWords_nil, rfl⟩
  · exact ⟨[u], cleanWords_singleton hu h, by rw [pyStrip_eq_self u h]; rfl⟩

theorem takeWhile_head? {p : Char → Bool} {J : Str} {c : Char}
    (h : (J.takeWhile p).head? = some c) : J.head? = some c := by
  cases J with
  | nil => simp at h
  | cons d t =>
    rw [List.takeWhile_cons] at h
    by_cases hd : p d = true
    · rw [if_pos hd] at h; simpa using h
    · rw [if_neg hd] at h; simp at h

theorem dropLast_head? {J : Str} {c : Char}
    (h : J.dropLast.head? = some c) : J.head? = some c := by
  cases J with
  | nil => simp at h
  | cons d t =>
    cases t with
    | nil => simp at h
    | cons e t2 => rw [List.dropLast_cons₂] at h; simpa using h

/-- The head character of a clean join is a character of the first word,
hence not whitespace. -/
theorem joinSp_head_not_space {x : Str} {xs : List Str} (hclean : cleanWords (x :: xs)) :
    ∀ c, (joinSp (x :: xs)).head? = some c → isPySpace c = false := by
  intro c hc
  obtain ⟨hx, hxns⟩ := hclean x (List.mem_cons_self _ _)
  rw [joinSp_head? xs hx] at hc
  cases x with
  | nil => exact absurd rfl hx
  | cons d t =>
    have hcd : d = c := by simpa using hc
    subst hcd
    exact hxns d (List.mem_cons_self _ _)

/-- Assembly step shared by the truncation lemmas: prepending a clean word
and a separator to a fragment whose strip is a clean join yields a clean
join. -/
theorem pyStrip_word_join {w T : Str} {ws2 : List Str} (hw : w ≠ [])
    (hns : ∀ c ∈ w, isPySpace c = false) (hws2 : cleanWords ws2)
    (hT : pyStrip T = joinSp ws2)
    (hHead : ∀ c, T.head? = some c → isPySpace c = false) :
    ∃ ws', cleanWords ws' ∧ pyStrip (w ++ ' ' :: T) = joinSp ws' := by
  have hrT : rstrip T = joinSp ws2 := by
    rw [← hT, pyStrip_eq_rstrip_of_head hHead]
  rw [pyStrip_word_append w T hw hns]
  by_cases he : rstrip T = []
  · exact ⟨[w], cleanWords_singleton hw hns, by rw [if_pos he]; rfl⟩
  · cases hws : ws2 with
    | nil => rw [hws] at hrT; exact absurd hrT he
    | cons y ys =>
      refine ⟨w :: y :: ys, ?_, ?_⟩
      · exact cleanWords_cons hw hns (by rw [← hws]; exact hws2)
      · rw [if_neg he, hrT, hws, joinSp_cons_cons]

/-- Truncating a clean join at the first brace and stripping yields a clean
join again. -/
theorem pyStrip_takeWhile_join : ∀ (ws : List Str), cleanWords ws →
    ∃ ws', cleanWords ws' ∧
      pyStrip ((joinSp ws).takeWhile (fun c => !(c == lbraceC))) = joinSp ws' := by
  intro ws
  induction ws with
  | nil => exact fun _ => ⟨[], cleanWords_nil, rfl⟩
  | cons w tail ih =>
    intro h
    obtain ⟨hw, hns⟩ := h w (List.mem_cons_self _ _)
    have htail : cleanWords tail := fun x hx => h x (List.mem_cons_of_mem _ hx)
    by_cases hall : ∀ c ∈ w, (!(c == lbraceC)) = true
    · cases tail with
      | nil =>
        show ∃ ws', cleanWords ws' ∧ pyStrip (w.takeWhile (fun c => !(c == lbraceC))) = joinSp ws'
        rw [takeWhile_eq_self_of _ w hall]
        exact join_of_spacefree w hns
      | cons x xs =>
        rw [joinSp_cons_cons]
        have hlen : ((w.takeWhile (fun c => !(c == lbraceC))).length = w.length) := by
          rw [takeWhile_eq_self_of _ w hall]
        rw [List.takeWhile_append, if_pos hlen, List.takeWhile_cons]
        have hsp : (!(' ' == lbraceC)) = true := by decide
        rw [if_pos hsp]
        obtain ⟨ws2, hws2, hIH⟩ := ih htail
        exact pyStrip_word_join hw hns hws2 hIH
          (fun c hc => joinSp_head_not_space htail c (takeWhile_head? hc))
    · -- the brace occurs inside `w`: the truncation stops there
      have hstop : ∀ rest : Str, (w ++ rest).takeWhile (fun c => !(c == lbraceC)) =
          w.takeWhile (fun c => !(c == lbraceC)) := by
        intro rest
        rw [List.takeWhile_append]
        have hne : ((w.takeWhile (fun c => !(c == lbraceC))).length ≠ w.length) := by
          intro hlen
          apply hall
          intro c hc
          have heq : w.takeWhile (fun c => !(c == lbraceC)) = w :=
            (List.takeWhile_prefix _).eq_of_length hlen
          have hc2 : c ∈ w.takeWhile (fun c => !(c == lbraceC)) := by
            rw [heq]; exact hc
          exact List.mem_takeWhile_imp (p := fun c => !(c == lbraceC)) hc2
        rw [if_neg hne]
      have hsub : ∀ c ∈ w.takeWhile (fun c => !(c == lbraceC)), isPySpace c = false :=
        fun c hc => hns c ((List.takeWhile_sublist _).subset hc)
      cases tail with
      | nil =>
        show ∃ ws', cleanWords ws' ∧ pyStrip (w.takeWhile (fun c => !(c == lbraceC))) = joinSp ws'
        exact join_of_spacefree _ hsub
      | cons x xs =>
        rw [joinSp_cons_cons, hstop]
        exact join_of_spacefree _ hsub

/-- Dropping the last character of a clean join and stripping yields a
clean join again. -/
theorem pyStrip_dropLast_join : ∀ (ws : List Str), cleanWords ws →
    ∃ ws', cleanWords ws' ∧ pyStrip (joinSp ws).dropLast = joinSp ws' := by
  intro ws
  induction ws with
  | nil => exact fun _ => ⟨[], cleanWords_nil, rfl⟩
  | cons w tail ih =>
    intro h
    obtain ⟨hw, hns⟩ := h w (List.mem_cons_self _ _)
    have htail : cleanWords tail := fun x hx => h x (List.mem_cons_of_mem _ hx)
    cases tail with
    | nil =>
      show ∃ ws', cleanWords ws' ∧ pyStrip (joinSp [w]).dropLast = joinSp ws'
      exact join_of_spacefree _ (fun c hc => hns c (List.mem_of_mem_dropLast hc))
    | cons x xs =>
      obtain ⟨hx, hxns⟩ := htail x (List.mem_cons_self _ _)
      have hJne : joinSp (x :: xs) ≠ [] := joinSp_ne_nil xs hx
      rw [joinSp_cons_cons]
      have hd1 : (w ++ ' ' :: joinSp (x :: xs)).dropLast =
          w ++ (' ' :: joinSp (x :: xs)).dropLast := by
        rw [List.dropLast_append]
        simp
      rw [hd1]
      obtain ⟨j0, J', hJ⟩ : ∃ j0 J', joinSp (x :: xs) = j0 :: J' := by
        cases hJc : joinSp (x :: xs) with
        | nil => exact absurd hJc hJne
        | cons j0 J' => exact ⟨j0, J', rfl⟩
      have hd2 : (' ' :: joinSp (x :: xs)).dropLast = ' ' :: (joinSp (x :: xs)).dropLast := by
        rw [hJ, List.dropLast_cons₂]
      rw [hd2]
      obtain ⟨ws2, hws2, hIH⟩ := ih htail
      exact pyStrip_word_join hw hns hws2 hIH
        (fun c hc => joinSp_head_not_space htail c (dropLast_head? hc))

theorem collapse_join (ws : List Str) (h : cleanWords ws) :
    collapse (joinSp ws) = joinSp ws := by
  unfold collapse
  rw [pyWords_join ws h]

/-- Every `clean_signature` output is a clean join of whitespace-free
words; in particular it is a fixed point of `collapse`. -/
theorem clean_signature_eq_join (sig : Str) :
    ∃ ws, cleanWords ws ∧ clean_signature sig = joinSp ws := by
  have h0 := pyWords_clean sig
  obtain ⟨ws1, hws1, hbe⟩ :
      ∃ ws1, cleanWords ws1 ∧ braceCut (collapse sig) = joinSp ws1 := by
    unfold braceCut collapse
    by_cases h : lbraceC ∈ joinSp (pyWords sig)
    · rw [if_pos h]
      exact pyStrip_takeWhile_join (pyWords sig) h0
    · rw [if_neg h]
      exact ⟨pyWords sig, h0, rfl⟩
  unfold clean_signature colonCut
  by_cases hc : (braceCut (collapse sig)).getLast? = some ':'
  · rw [if_pos hc, hbe]
    exact pyStrip_dropLast_join ws1 hws1
  · rw [if_neg hc]
    exact ⟨ws1, hws1, hbe⟩

theorem lbraceC_not_mem_braceCut (s : Str) : lbraceC ∉ braceCut s := by
  unfold braceCut
  by_cases h : lbraceC ∈ s
  · rw [if_pos h]
    intro hmem
    have h2 := List.mem_takeWhile_imp (p := fun c => !(c == lbraceC))
      (mem_of_mem_pyStrip hmem)
    simp at h2
  · rw [if_neg h]
    exact h

/-- The normalized signature never contains the body-opening brace. -/
theorem lbraceC_not_mem_clean (s : Str) : lbraceC ∉ clean_signature s := by
  unfold clean_signature colonCut
  by_cases h : (braceCut (collapse s)).getLast? = some ':'
  · rw [if_pos h]
    intro hmem
    exact lbraceC_not_mem_braceCut (collapse s)
      (List.mem_of_mem_dropLast (mem_of_mem_pyStrip hmem))
  · rw [if_neg h]
    exact lbraceC_not_mem_braceCut _

theorem rstrip_getLast?_of_pyStrip {y : Str} {c : Char}
    (h : (pyStrip y).getLast? = some c) : (rstrip y).getLast? = some c := by
  have hne : rstrip (lstrip y) ≠ [] := by
    intro h0
    rw [pyStrip, h0] at h
    simp at h
  have hy : y.takeWhile isPySpace ++ lstrip y = y := List.takeWhile_append_dropWhile _ _
  have h2 : rstrip y = y.takeWhile isPySpace ++ rstrip (lstrip y) := by
    conv_lhs => rw [← hy]
    rw [rstrip_append, if_neg hne]
  rw [h2, List.getLast?_append_of_ne_nil _ hne]
  exact h

/-- When `colonCut` leaves a trailing colon behind, its input ended in a
colon and, ignoring trailing whitespace, in a second colon before it. -/
theorem colonCut_getLast {b : Str} (h : (colonCut b).getLast? = some ':') :
    b.getLast? = some ':' ∧ (rstrip b.dropLast).getLast? = some ':' := by
  unfold colonCut at h
  by_cases hb : b.getLast? = some ':'
  · rw [if_pos hb] at h
    exact ⟨hb, rstrip_getLast?_of_pyStrip h⟩
  · rw [if_neg hb] at h
    exact absurd h hb

/-!
## Claim C3: idempotence of `clean_signature`
-/

/-- Counterexample to claim C3 as stated: `clean_signature` strips only
one trailing colon, so on `"a::"` a second application strips a second
colon and the composite is not idempotent. -/
theorem c3_counterexample :
    clean_signature (clean_signature (strD "a::")) ≠ clean_signature (strD "a::") := by
  decide

/-- Amended claim C3: `clean_signature` is idempotent on every input whose
normalized signature does not end with a colon (equivalently, whenever its
colon-stripping step does not expose a second trailing colon). -/
theorem c3_amended (sig : Str)
    (h : (clean_signature sig).getLast? ≠ some ':') :
    clean_signature (clean_signature sig) = clean_signature sig := by
  obtain ⟨ws, hws, hj⟩ := clean_signature_eq_join sig
  have hcollapse : collapse (clean_signature sig) = clean_signature sig := by
    rw [hj]; exact collapse_join ws hws
  have hbrace : braceCut (clean_signature sig) = clean_signature sig := by
    unfold braceCut
    rw [if_neg (lbraceC_not_mem_clean sig)]
  have hcolon : colonCut (clean_signature sig) = clean_signature sig := by
    unfold colonCut
    rw [if_neg h]
  conv_lhs => rw [clean_signature, hcollapse, hbrace, hcolon]

/-- Witness for the amended claim C3 at a concrete input. -/
theorem c3_amended_witness :
    (clean_signature (strD "def f(x):")).getLast? ≠ some ':' ∧
      clean_signature (clean_signature (strD "def f(x):")) =
        clean_signature (strD "def f(x):") :=
  ⟨by decide, c3_amended (strD "def f(x):") (by decide)⟩

/-!
## Claim C1: shape of extractor signatures
-/

theorem parseSwiftGo_sig {path : Str} : ∀ (suffix : List Str) (k : Nat)
    (e : FunctionEntry), e ∈ parseSwiftGo path suffix k →
    ∃ raw, e.signature = clean_signature raw := by
  intro suffix
  induction suffix with
  | nil => intro k e h; simp [parseSwiftGo] at h
  | cons l rest ih =>
    intro k e h
    rcases List.mem_append.mp h with h1 | h1
    · by_cases hm : swiftMatch l = true
      · rw [if_pos hm] at h1
        have he : e = { path := path,
                        line := k + 1,
                        signature := clean_signature (joinSp (swiftSigLines l rest)),
                        language := strD "Swift" } := by simpa using h1
        exact ⟨joinSp (swiftSigLines l rest), by rw [he]⟩
      · rw [if_neg hm] at h1
        simp at h1
    · exact ih (k + 1) e h1

theorem parsePythonGo_sig {path : Str} : ∀ (suffix : List Str) (k : Nat)
    (e : FunctionEntry), e ∈ parsePythonGo path suffix k →
    ∃ raw, e.signature = clean_signature raw := by
  intro suffix
  induction suffix with
  | nil => intro k e h; simp [parsePythonGo] at h
  | cons l rest ih =>
    intro k e h
    rcases List.mem_append.mp h with h1 | h1
    · by_cases hm : pythonMatch l = true
      · rw [if_pos hm] at h1
        have he : e = { path := path,
                        line := k + 1,
                        signature := clean_signature (joinSp (pySigLines l rest)),
                        language := strD "Python" } := by simpa using h1
        exact ⟨joinSp (pySigLines l rest), by rw [he]⟩
      · rw [if_neg hm] at h1
        simp at h1
    · exact ih (k + 1) e h1

theorem parse_shell_sig {path : Str} {lines : List Str} {e : FunctionEntry}
    (h : e ∈ parse_shell path lines) : ∃ raw, e.signature = clean_signature raw := by
  unfold parse_shell at h
  rw [List.mem_filterMap] at h
  obtain ⟨p, _, he⟩ := h
  by_cases hm : (shellMatchA (pyStrip p.2) || shellMatchB (pyStrip p.2)) = true
  · simp only [hm, if_true] at he
    refine ⟨pyStrip p.2, ?_⟩
    injection he with he2
    rw [← he2]
  · simp only [hm] at he
    simp at he

/-- Counterexample to claim C1 as stated: on the one-line Python file
`def f(x)::` the extractor emits the signature `def f(x):`, which ends
with a colon (only one trailing colon is stripped). -/
theorem c1_counterexample :
    ∃ e ∈ parse_python (strD "a.py") [strD "def f(x)::"],
      e.signature.getLast? = some ':' := by decide

/-- Amended claim C1: every FunctionEntry produced by the three extractors
has a signature with no body-opening brace; the signature ends with a colon
only in the degenerate case where the text reaching the colon-stripping
step ended with a colon and, after the whitespace before it, a second
colon — `clean_signature` strips exactly one trailing colon. -/
theorem c1_amended (path : Str) (lines : List Str) (e : FunctionEntry)
    (h : e ∈ parse_swift path lines ∨ e ∈ parse_python path lines ∨
      e ∈ parse_shell path lines) :
    lbraceC ∉ e.signature ∧
      (e.signature.getLast? = some ':' →
        ∃ b, e.signature = colonCut b ∧ b.getLast? = some ':' ∧
          (rstrip b.dropLast).getLast? = some ':') := by
  obtain ⟨raw, hraw⟩ : ∃ raw, e.signature = clean_signature raw := by
    rcases h with h | h | h
    · exact parseSwiftGo_sig lines 0 e h
    · exact parsePythonGo_sig lines 0 e h
    · exact parse_shell_sig h
  constructor
  · rw [hraw]
    exact lbraceC_not_mem_clean raw
  · intro hcol
    rw [hraw] at hcol
    obtain ⟨h1, h2⟩ := colonCut_getLast hcol
    exact ⟨braceCut (collapse raw), by rw [hraw]; rfl, h1, h2⟩

/-- Witness for the amended claim C1: the shell entry of `deploy() {`. -/
theorem c1_amended_witness :
    lbraceC ∉ strD "deploy()" ∧
      ((strD "deploy()").getLast? = some ':' →
        ∃ b, strD "deploy()" = colonCut b ∧ b.getLast? = some ':' ∧
          (rstrip b.dropLast).getLast? = some ':') :=
  c1_amended (strD "s.sh") [strD "deploy() \x7b"]
    ⟨strD "s.sh", 1, strD "deploy()", strD "Shell"⟩
    (Or.inr (Or.inr (by decide)))

/-!
## Claim C2: the stop conditions of the Swift accumulation loop
-/

/-- Both branches of the source's peek stop the accumulation: the block is
constantly empty. -/
theorem peekBrace_eq_nil : ∀ rs : List Str, peekBrace rs = [] := by
  intro rs
  cases rs <;> simp [peekBrace]

/-- Counterexample to claim C2 as stated: after `a: Int)` (which ends with
a closing parenthesis) the source stops even though the next line
`-> Int {` does not start with the brace, while the claim's rule would
continue accumulating. -/
theorem c2_counterexample :
    swiftAccumGo (strD "func f(") [strD "a: Int)", strD "-> Int \x7b"] 1 ≠
      swiftAccumClaim (strD "func f(") [strD "a: Int)", strD "-> Int \x7b"] 1 := by
  decide

/-- Amended claim C2: accumulation stops exactly when (a) the accumulated
text contains the brace, (b) a blank or comment-only line is met, or (c)
the current line ends with `)`/`throws`/`rethrows` — unconditionally, the
peeked next line never being consumed; equivalently, the source loop
computes the amended accumulation on every input. -/
theorem c2_amended : ∀ (rest : List Str) (last : Str) (cnt : Nat),
    swiftAccumGo last rest cnt = swiftAccumAmended last rest cnt := by
  intro rest
  induction rest with
  | nil => intro last cnt; rfl
  | cons l rs ih =>
    intro last cnt
    simp only [swiftAccumGo, swiftAccumAmended, peekBrace_eq_nil, ih]

/-!
## Claims C5 and C10: lookahead bound and per-line scanning
-/

theorem swiftAccumGo_length : ∀ (rest : List Str) (last : Str) (cnt : Nat),
    (swiftAccumGo last rest cnt).length ≤ 8 - cnt := by
  intro rest
  induction rest with
  | nil => intro last cnt; simp [swiftAccumGo]
  | cons l rs ih =>
    intro last cnt
    have hrec := ih (pyStrip l) (cnt + 1)
    simp only [swiftAccumGo, peekBrace_eq_nil]
    split_ifs with h1 h2 h3 h4 h5 <;> simp [List.length_cons] <;> omega

theorem pyAccumGo_length : ∀ (rest : List Str) (last : Str) (cnt : Nat),
    (pyAccumGo last rest cnt).length ≤ 8 - cnt := by
  intro rest
  induction rest with
  | nil => intro last cnt; simp [pyAccumGo]
  | cons l rs ih =>
    intro last cnt
    have hrec := ih (pyStrip l) (cnt + 1)
    simp only [pyAccumGo]
    split_ifs with h1 h2 h3 h4 <;> simp [List.length_cons] <;> omega

theorem parseSwiftGo_mem {path : Str} : ∀ (suffix : List Str) (k i : Nat) (l : Str),
    suffix[i]? = some l → swiftMatch l = true →
    ∃ e ∈ parseSwiftGo path suffix k, e.line = k + i + 1 ∧
      e.signature = clean_signature (joinSp (swiftSigLines l (suffix.drop (i + 1)))) := by
  intro suffix
  induction suffix with
  | nil => intro k i l h _; simp at h
  | cons l0 rest ih =>
    intro k i l h hm
    cases i with
    | zero =>
      rw [List.getElem?_cons_zero] at h
      injection h with h
      subst h
      refine ⟨{ path := path,
                line := k + 1,
                signature := clean_signature (joinSp (swiftSigLines l0 rest)),
                language := strD "Swift" }, ?_, by simp, by simp⟩
      simp [parseSwiftGo, hm]
    | succ i =>
      rw [List.getElem?_cons_succ] at h
      obtain ⟨e, hmem, hline, hsig⟩ := ih (k + 1) i l h hm
      refine ⟨e, ?_, by omega, by simpa using hsig⟩
      exact List.mem_append_right _ hmem

theorem parsePythonGo_mem {path : Str} : ∀ (suffix : List Str) (k i : Nat) (l : Str),
    suffix[i]? = some l → pythonMatch l = true →
    ∃ e ∈ parsePythonGo path suffix k, e.line = k + i + 1 ∧
      e.signature = clean_signature (joinSp (pySigLines l (suffix.drop (i + 1)))) := by
  intro suffix
  induction suffix with
  | nil => intro k i l h _; simp at h
  | cons l0 rest ih =>
    intro k i l h hm
    cases i with
    | zero =>
      rw [List.getElem?_cons_zero] at h
      injection h with h
      subst h
      refine ⟨{ path := path,
                line := k + 1,
                signature := clean_signature (joinSp (pySigLines l0 rest)),
                language := strD "Python" }, ?_, by simp, by simp⟩
      simp [parsePythonGo, hm]
    | succ i =>
      rw [List.getElem?_cons_succ] at h
      obtain ⟨e, hmem, hline, hsig⟩ := ih (k + 1) i l h hm
      refine ⟨e, ?_, by omega, by simpa using hsig⟩
      exact List.mem_append_right _ hmem

/-- Claim C5: a matched declaration head is always emitted — even when its
parameter list spans more than 8 lines — and the text accumulated into its
signature (`sig_lines`) consists of at most 8 lines. -/
theorem c5_lookahead (path : Str) (lines : List Str) (i : Nat) (l : Str)
    (hget : lines[i]? = some l) :
    (swiftMatch l = true →
      ∃ e ∈ parse_swift path lines, e.line = i + 1 ∧
        e.signature = clean_signature (joinSp (swiftSigLines l (lines.drop (i + 1)))) ∧
        (swiftSigLines l (lines.drop (i + 1))).length ≤ 8) ∧
    (pythonMatch l = true →
      ∃ e ∈ parse_python path lines, e.line = i + 1 ∧
        e.signature = clean_signature (joinSp (pySigLines l (lines.drop (i + 1)))) ∧
        (pySigLines l (lines.drop (i + 1))).length ≤ 8) := by
  constructor
  · intro hm
    obtain ⟨e, hmem, hline, hsig⟩ := parseSwiftGo_mem lines 0 i l hget hm
    refine ⟨e, hmem, by omega, hsig, ?_⟩
    have hlen := swiftAccumGo_length (lines.drop (i + 1)) (pyStrip l) 1
    simp only [swiftSigLines, List.length_cons]
    omega
  · intro hm
    obtain ⟨e, hmem, hline, hsig⟩ := parsePythonGo_mem lines 0 i l hget hm
    refine ⟨e, hmem, by omega, hsig, ?_⟩
    have hlen := pyAccumGo_length (lines.drop (i + 1)) (pyStrip l) 1
    simp only [pySigLines, List.length_cons]
    omega

/-- Witness for claim C5: a Python declaration whose parameter list spans
ten lines is emitted with an eight-line accumulation. -/
theorem c5_lookahead_witness :
    ∃ e ∈ parse_python (strD "a.py")
        [strD "def f(", strD "a,", strD "b,", strD "c,", strD "d,",
         strD "e,", strD "f,", strD "g,", strD "h,", strD "i):"],
      e.line = 0 + 1 ∧
        e.signature = clean_signature (joinSp (pySigLines (strD "def f(")
          (([strD "def f(", strD "a,", strD "b,", strD "c,", strD "d,",
             strD "e,", strD "f,", strD "g,", strD "h,", strD "i):"]).drop (0 + 1)))) ∧
        (pySigLines (strD "def f(")
          (([strD "def f(", strD "a,", strD "b,", strD "c,", strD "d,",
             strD "e,", strD "f,", strD "g,", strD "h,", strD "i):"]).drop (0 + 1))).length ≤ 8 :=
  (c5_lookahead (strD "a.py")
    [strD "def f(", strD "a,", strD "b,", strD "c,", strD "d,",
     strD "e,", strD "f,", strD "g,", strD "h,", strD "i):"] 0 (strD "def f(")
    (by decide)).2 (by decide)

theorem parseSwiftGo_lines {path : Str} : ∀ (suffix : List Str) (k : Nat),
    (parseSwiftGo path suffix k).map FunctionEntry.line =
      ((List.enumFrom k suffix).filter (fun p => swiftMatch p.2)).map (fun p => p.1 + 1) := by
  intro suffix
  induction suffix with
  | nil => intro k; rfl
  | cons l rest ih =>
    intro k
    simp only [parseSwiftGo, List.map_append, List.enumFrom_cons, List.filter_cons]
    by_cases hm : swiftMatch l = true
    · simp [hm, ih]
    · simp [hm, ih]

theorem parsePythonGo_lines {path : Str} : ∀ (suffix : List Str) (k : Nat),
    (parsePythonGo path suffix k).map FunctionEntry.line =
      ((List.enumFrom k suffix).filter (fun p => pythonMatch p.2)).map (fun p => p.1 + 1) := by
  intro suffix
  induction suffix with
  | nil => intro k; rfl
  | cons l rest ih =>
    intro k
    simp only [parsePythonGo, List.map_append, List.enumFrom_cons, List.filter_cons]
    by_cases hm : pythonMatch l = true
    · simp [hm, ih]
    · simp [hm, ih]

/-- Claim C10: the outer scan advances one line per iteration, so the
emitted entries are exactly one per pattern-matching line, in order — in
particular a matching line already consumed into an earlier declaration's
accumulated signature still yields its own entry. -/
theorem c10_rescan (path : Str) (lines : List Str) :
    (parse_swift path lines).map FunctionEntry.line =
      ((List.enumFrom 0 lines).filter (fun p => swiftMatch p.2)).map (fun p => p.1 + 1) ∧
    (parse_python path lines).map FunctionEntry.line =
      ((List.enumFrom 0 lines).filter (fun p => pythonMatch p.2)).map (fun p => p.1 + 1) :=
  ⟨parseSwiftGo_lines lines 0, parsePythonGo_lines lines 0⟩

/-!
## Claims C4 and C9: the sorted Index and the last-wins dictionary
-/

theorem collect_functions_pairwise (tree : List (Str × List Str)) :
    List.Pairwise entryLe (collect_functions tree) := by
  unfold collect_functions
  exact List.sorted_insertionSort entryLe _

/-- Claim C4: the Index produced by `collect_functions` is always sorted
ascending by the key `(path, line, signature)`, for every input tree. -/
theorem c4_sorted (tree : List (Str × List Str)) :
    List.Pairwise (fun a b => entryKey a ≤ entryKey b) (collect_functions tree) :=
  (collect_functions_pairwise tree).imp (fun h => h)

theorem indexed_eq_getLast? : ∀ (entries : List FunctionEntry) (k : Str × Str),
    indexed entries k =
      (entries.filter (fun e => decide ((e.path, e.signature) = k))).getLast? := by
  intro entries
  induction entries using List.reverseRecOn with
  | nil => intro k; rfl
  | append_singleton l e ih =>
    intro k
    have hfold : indexed (l ++ [e]) k =
        (if k = (e.path, e.signature) then some e else indexed l k) := by
      unfold indexed
      rw [List.foldl_append]
      rfl
    rw [hfold, List.filter_append]
    by_cases hk : k = (e.path, e.signature)
    · have hd : decide ((e.path, e.signature) = k) = true := decide_eq_true hk.symm
      rw [if_pos hk]
      simp only [List.filter_cons, hd, if_true, List.filter_nil]
      rw [List.getLast?_concat]
    · have hd : decide ((e.path, e.signature) = k) = false := by
        simp only [decide_eq_false_iff_not]
        exact fun h2 => hk h2.symm
      rw [if_neg hk]
      simp only [List.filter_cons, hd, Bool.false_eq_true, if_false, List.filter_nil,
        List.append_nil]
      exact ih k

theorem getLast?_mem' {α : Type} : ∀ {l : List α} {e : α}, l.getLast? = some e → e ∈ l := by
  intro l
  induction l with
  | nil => intro e h; simp at h
  | cons a t ih =>
    intro e h
    cases t with
    | nil =>
      have ha : a = e := by simpa using h
      subst ha
      exact List.mem_cons_self _ _
    | cons b t2 =>
      rw [List.getLast?_cons_cons] at h
      exact List.mem_cons_of_mem _ (ih h)

theorem pairwise_getLast?_max {R : FunctionEntry → FunctionEntry → Prop} :
    ∀ (l : List FunctionEntry) (e : FunctionEntry), List.Pairwise R l →
      l.getLast? = some e → ∀ x ∈ l, x = e ∨ R x e := by
  intro l
  induction l with
  | nil => intro e _ h; simp at h
  | cons a t ih =>
    intro e hp hl x hx
    cases t with
    | nil =>
      have he : a = e := by simpa using hl
      subst he
      left
      simpa using hx
    | cons b t2 =>
      rw [List.getLast?_cons_cons] at hl
      rcases List.mem_cons.mp hx with rfl | hx2
      · right
        exact (List.pairwise_cons.mp hp).1 e (getLast?_mem' hl)
      · exact ih e (List.pairwise_cons.mp hp).2 hl x hx2

/-- Claim C9: the `(path, signature) -> entry` dictionary built by
`write_updates` resolves each key to the entry that comes last in the
sorted Index, i.e. the one with the greatest line number among the entries
sharing that `(path, signature)` pair. -/
theorem c9_last_wins (tree : List (Str × List Str)) (k : Str × Str) (e : FunctionEntry)
    (h : indexed (collect_functions tree) k = some e) :
    e ∈ collect_functions tree ∧ (e.path, e.signature) = k ∧
      ∀ e2 ∈ collect_functions tree, (e2.path, e2.signature) = k → e2.line ≤ e.line := by
  rw [indexed_eq_getLast?] at h
  have hmem := getLast?_mem' h
  rw [List.mem_filter] at hmem
  obtain ⟨hin, hkeyd⟩ := hmem
  have hkey : (e.path, e.signature) = k := of_decide_eq_true hkeyd
  refine ⟨hin, hkey, ?_⟩
  intro e2 hin2 hkey2
  have hfil2 : e2 ∈ (collect_functions tree).filter
      (fun e' => decide ((e'.path, e'.signature) = k)) := by
    rw [List.mem_filter]
    exact ⟨hin2, decide_eq_true hkey2⟩
  have hpw := (collect_functions_pairwise tree).filter
    (fun e' => decide ((e'.path, e'.signature) = k))
  rcases pairwise_getLast?_max _ e hpw h e2 hfil2 with rfl | hR
  · exact le_refl _
  · have hle : entryKey e2 ≤ entryKey e := hR
    have hpath : e2.path = e.path := by
      have hpp : (e2.path, e2.signature) = (e.path, e.signature) := by rw [hkey2, hkey]
      exact (Prod.mk.injEq _ _ _ _ ▸ hpp).1
    unfold entryKey at hle
    rw [Prod.Lex.le_iff] at hle
    rcases hle with hlt | ⟨-, hle2⟩
    · rw [hpath] at hlt
      exact absurd hlt (lt_irrefl _)
    · rw [Prod.Lex.le_iff] at hle2
      rcases hle2 with hlt2 | ⟨heq2, -⟩
      · exact le_of_lt hlt2
      · exact le_of_eq heq2

/-- Witness for claim C9: a Python file with the same signature at lines 1
and 3; the dictionary resolves to the line-3 entry. -/
theorem c9_last_wins_witness :
    (⟨strD "b.py", 3, strD "def f(x)", strD "Python"⟩ : FunctionEntry) ∈
        collect_functions [(strD "b.py", [strD "def f(x):", strD "y = 1", strD "def f(x):"])] ∧
      ((strD "b.py" : Str), (strD "def f(x)" : Str)).1 =
        ((strD "b.py" : Str), (strD "def f(x)" : Str)).1 ∧
      ∀ e2 ∈ collect_functions [(strD "b.py",
          [strD "def f(x):", strD "y = 1", strD "def f(x):"])],
        (e2.path, e2.signature) = (strD "b.py", strD "def f(x)") → e2.line ≤ 3 := by
  have h := c9_last_wins [(strD "b.py", [strD "def f(x):", strD "y = 1", strD "def f(x):"])]
    (strD "b.py", strD "def f(x)")
    ⟨strD "b.py", 3, strD "def f(x)", strD "Python"⟩ (by decide)
  exact ⟨h.1, rfl, h.2.2⟩

/-!
## Claims C6, C7 and C8: the Snapshot Differ and the change document
-/

theorem keepFirstOccs_nil : keepFirstOccs [] = [] := by rw [keepFirstOccs]

theorem keepFirstOccs_cons (x : Str) (xs : List Str) :
    keepFirstOccs (x :: xs) = x :: keepFirstOccs (xs.filter (fun y => !(y == x))) := by
  rw [keepFirstOccs]

theorem dedupeGo_eq_keepFirstOccs : ∀ (l : List Str) (seen : List Str),
    dedupeGo seen l = keepFirstOccs (l.filter (fun x => !(seen.contains x))) := by
  intro l
  induction l with
  | nil => intro seen; rw [List.filter_nil, keepFirstOccs_nil]; rfl
  | cons x xs ih =>
    intro seen
    by_cases hc : seen.contains x = true
    · have h1 : ¬((!(seen.contains x)) = true) := by rw [hc]; simp
      simp only [dedupeGo, List.filter_cons]
      rw [if_pos hc, if_neg h1]
      exact ih seen
    · have h1 : (!(seen.contains x)) = true := by
        simpa using hc
      simp only [dedupeGo, List.filter_cons]
      rw [if_neg hc, if_pos h1, keepFirstOccs_cons, ih (x :: seen), List.filter_filter]
      refine congrArg (fun t => x :: keepFirstOccs t) (List.filter_congr ?_)
      intro a _
      rw [List.contains_cons]
      cases h3 : a == x <;> cases h4 : seen.contains a <;> rfl

theorem dedupe_eq_keepFirstOccs (l : List Str) : dedupe l = keepFirstOccs l := by
  unfold dedupe
  rw [dedupeGo_eq_keepFirstOccs]
  congr 1
  have h : ∀ x ∈ l, (!(([] : List Str).contains x)) = true := by
    intro x _
    rfl
  calc l.filter (fun x => !(([] : List Str).contains x))
      = l.filter (fun _ => true) := List.filter_congr (fun x hx => h x hx)
    _ = l := List.filter_true l

theorem keepFirstOccs_mem_aux : ∀ (n : Nat) (l : List Str), l.length ≤ n →
    ∀ a, (a ∈ keepFirstOccs l ↔ a ∈ l) := by
  intro n
  induction n with
  | zero =>
    intro l hl a
    have h0 : l = [] := List.length_eq_zero.mp (Nat.le_zero.mp hl)
    subst h0
    rw [keepFirstOccs_nil]
  | succ n ih =>
    intro l hl a
    cases l with
    | nil => rw [keepFirstOccs_nil]
    | cons x xs =>
      rw [keepFirstOccs_cons]
      have hlen : (xs.filter (fun y => !(y == x))).length ≤ n :=
        le_trans (List.length_filter_le _ _)
          (Nat.le_of_succ_le_succ (by simpa using hl))
      constructor
      · intro h
        rcases List.mem_cons.mp h with rfl | h2
        · exact List.mem_cons_self _ _
        · exact List.mem_cons_of_mem _
            (List.mem_of_mem_filter ((ih _ hlen a).mp h2))
      · intro h
        rcases List.mem_cons.mp h with rfl | h2
        · exact List.mem_cons_self _ _
        · by_cases hax : a = x
          · subst hax
            exact List.mem_cons_self _ _
          · refine List.mem_cons_of_mem _ ((ih _ hlen a).mpr ?_)
            rw [List.mem_filter]
            exact ⟨h2, by simpa using hax⟩

theorem keepFirstOccs_mem (l : List Str) (a : Str) :
    a ∈ keepFirstOccs l ↔ a ∈ l :=
  keepFirstOccs_mem_aux l.length l (le_refl _) a

theorem keepFirstOccs_nodup_aux : ∀ (n : Nat) (l : List Str), l.length ≤ n →
    (keepFirstOccs l).Nodup := by
  intro n
  induction n with
  | zero =>
    intro l hl
    have h0 : l = [] := List.length_eq_zero.mp (Nat.le_zero.mp hl)
    subst h0
    rw [keepFirstOccs_nil]
    exact List.nodup_nil
  | succ n ih =>
    intro l hl
    cases l with
    | nil => rw [keepFirstOccs_nil]; exact List.nodup_nil
    | cons x xs =>
      rw [keepFirstOccs_cons]
      have hlen : (xs.filter (fun y => !(y == x))).length ≤ n :=
        le_trans (List.length_filter_le _ _)
          (Nat.le_of_succ_le_succ (by simpa using hl))
      rw [List.nodup_cons]
      constructor
      · intro hmem
        have h2 := (keepFirstOccs_mem _ x).mp hmem
        have h3 := (List.mem_filter.mp h2).2
        simp at h3
      · exact ih _ hlen

theorem keepFirstOccs_nodup (l : List Str) : (keepFirstOccs l).Nodup :=
  keepFirstOccs_nodup_aux l.length l (le_refl _)

theorem count_eq_one_of_nodup_mem : ∀ {l : List Str} {a : Str},
    l.Nodup → a ∈ l → List.count a l = 1 := by
  intro l
  induction l with
  | nil => intro a _ h; simp at h
  | cons x xs ih =>
    intro a hnd hmem
    obtain ⟨hnx, hnxs⟩ := List.nodup_cons.mp hnd
    rw [List.count_cons]
    rcases List.mem_cons.mp hmem with rfl | h2
    · have h0 : List.count a xs = 0 := by
        rw [List.count_eq_zero]
        exact hnx
      simp [h0]
    · have hne : a ≠ x := fun he => hnx (he ▸ h2)
      have hb : (x == a) = false := beq_eq_false_iff_ne.mpr (fun he => hne he.symm)
      rw [hb]
      simp [ih hnxs h2]

theorem lookupA_mapVals {α β : Type} (f : α → β) :
    ∀ (m : List (Str × α)) (k : Str),
      lookupA (m.map (fun p => (p.1, f p.2))) k = (lookupA m k).map f := by
  intro m
  induction m with
  | nil => intro k; rfl
  | cons p rest ih =>
    obtain ⟨k0, v⟩ := p
    intro k
    by_cases h : k0 = k
    · simp [lookupA, h]
    · simp [lookupA, h, ih]

/-- Claim C6: the per-file added and removed lists of
`find_changes_in_worktree` are the raw scans deduplicated keeping the first
occurrence of each signature — each signature occurring in the raw list
appears exactly once, at the position of its first occurrence. -/
theorem c6_dedup (d : List Str) (file : Str) (l : List Str) :
    (lookupA (rawChanges d).added file = some l →
        lookupA (find_changes_in_worktree (some d)).1 file = some (dedupe l) ∧
        dedupe l = keepFirstOccs l ∧ (dedupe l).Nodup ∧
        ∀ sg ∈ l, List.count sg (dedupe l) = 1) ∧
    (lookupA (rawChanges d).removed file = some l →
        lookupA (find_changes_in_worktree (some d)).2 file = some (dedupe l) ∧
        dedupe l = keepFirstOccs l ∧ (dedupe l).Nodup ∧
        ∀ sg ∈ l, List.count sg (dedupe l) = 1) := by
  have hshared : dedupe l = keepFirstOccs l ∧ (dedupe l).Nodup ∧
      ∀ sg ∈ l, List.count sg (dedupe l) = 1 := by
    refine ⟨dedupe_eq_keepFirstOccs l, ?_, ?_⟩
    · rw [dedupe_eq_keepFirstOccs]
      exact keepFirstOccs_nodup l
    · intro sg hsg
      have hmem : sg ∈ dedupe l := by
        rw [dedupe_eq_keepFirstOccs]
        exact (keepFirstOccs_mem l sg).mpr hsg
      have hnd : (dedupe l).Nodup := by
        rw [dedupe_eq_keepFirstOccs]
        exact keepFirstOccs_nodup l
      exact count_eq_one_of_nodup_mem hnd hmem
  constructor
  · intro h
    refine ⟨?_, hshared.1, hshared.2.1, hshared.2.2⟩
    show lookupA ((rawChanges d).added.map (fun p => (p.1, dedupe p.2))) file = _
    rw [lookupA_mapVals, h]
    rfl
  · intro h
    refine ⟨?_, hshared.1, hshared.2.1, hshared.2.2⟩
    show lookupA ((rawChanges d).removed.map (fun p => (p.1, dedupe p.2))) file = _
    rw [lookupA_mapVals, h]
    rfl

/-- Witness for claim C6: a synthetic diff adding the same signature twice
for one file. -/
theorem c6_dedup_witness :
    lookupA (find_changes_in_worktree (some [strD "+++ b/a.py", strD "+def f():",
        strD "+y = 2", strD "+def f():"])).1 (strD "a.py") =
      some (dedupe [strD "def f()", strD "def f()"]) ∧
      dedupe [strD "def f()", strD "def f()"] =
        keepFirstOccs [strD "def f()", strD "def f()"] ∧
      (dedupe [strD "def f()", strD "def f()"]).Nodup ∧
      ∀ sg ∈ [strD "def f()", strD "def f()"],
        List.count sg (dedupe [strD "def f()", strD "def f()"]) = 1 :=
  (c6_dedup [strD "+++ b/a.py", strD "+def f():", strD "+y = 2", strD "+def f():"]
    (strD "a.py") [strD "def f()", strD "def f()"]).1 (by decide)

/-- Claim C7: when a git invocation fails (modelled by the `none` input),
`find_changes_in_worktree` returns two empty mappings and
`untracked_function_files` returns an empty mapping; both functions are
total, so the run continues. -/
theorem c7_git_failure :
    find_changes_in_worktree none = ([], []) ∧
      ∀ entries : List FunctionEntry, untracked_function_files none entries = [] :=
  ⟨rfl, fun _ => rfl⟩

theorem indexed_eq_none {entries : List FunctionEntry} {k : Str × Str}
    (h : ∀ e ∈ entries, ¬((e.path, e.signature) = k)) : indexed entries k = none := by
  rw [indexed_eq_getLast?]
  have hfil : entries.filter (fun e => decide ((e.path, e.signature) = k)) = [] := by
    rw [List.filter_eq_nil_iff]
    intro e he
    simp only [decide_eq_true_eq]
    exact h e he
  rw [hfil]
  rfl

/-- Claim C8: for the diff adding `+def new_fn():` under `a.py`, when the
Index has no entry with path `a.py` and signature `def new_fn()`, the
Added or Updated Signatures section lists the bare signature
`def new_fn()` with no line number. -/
theorem c8_bare_signature (entries : List FunctionEntry) (now : Str)
    (gitStatus : Option (List Str))
    (h : ∀ e ∈ entries, ¬(e.path = strD "a.py" ∧ e.signature = strD "def new_fn()")) :
    addedSection (find_changes_in_worktree (some [strD "+++ b/a.py",
        strD "+def new_fn():"])).1 entries =
      [strD "## Added or Updated Signatures", strD "", fileHeading (strD "a.py"),
       strD "", lineBare (strD "def new_fn()"), strD ""] ∧
      lineBare (strD "def new_fn()") ∈ write_updates_lines now entries
        (some [strD "+++ b/a.py", strD "+def new_fn():"]) gitStatus := by
  have hadd : (find_changes_in_worktree (some [strD "+++ b/a.py",
      strD "+def new_fn():"])).1 = [(strD "a.py", [strD "def new_fn()"])] := by decide
  have hidx : indexed entries (strD "a.py", strD "def new_fn()") = none := by
    apply indexed_eq_none
    intro e he heq
    have h1 : e.path = strD "a.py" := congrArg Prod.fst heq
    have h2 : e.signature = strD "def new_fn()" := congrArg Prod.snd heq
    exact h e he ⟨h1, h2⟩
  have hsec : addedSection [(strD "a.py", [strD "def new_fn()"])] entries =
      [strD "## Added or Updated Signatures", strD "", fileHeading (strD "a.py"),
       strD "", lineBare (strD "def new_fn()"), strD ""] := by
    unfold addedSection
    rw [if_neg (by simp)]
    have hkeys : sortKeys ([(strD "a.py", [strD "def new_fn()"])].map Prod.fst) =
        [strD "a.py"] := rfl
    rw [hkeys]
    have hlook : lookupA [(strD "a.py", [strD "def new_fn()"])] (strD "a.py") =
        some [strD "def new_fn()"] := rfl
    simp only [List.flatMap_cons, List.flatMap_nil, List.append_nil, hlook, Option.getD_some,
      List.map_cons, List.map_nil]
    simp [sigLineFor, hidx]
  refine ⟨by rw [hadd]; exact hsec, ?_⟩
  unfold write_updates_lines
  simp only [hadd]
  rw [if_neg (by simp)]
  refine List.mem_append_right _ ?_
  refine List.mem_append_left _ (List.mem_append_left _ ?_)
  rw [hsec]
  simp

/-- Witness for claim C8: empty Index, empty status. -/
theorem c8_bare_signature_witness :
    addedSection (find_changes_in_worktree (some [strD "+++ b/a.py",
        strD "+def new_fn():"])).1 [] =
      [strD "## Added or Updated Signatures", strD "", fileHeading (strD "a.py"),
       strD "", lineBare (strD "def new_fn()"), strD ""] ∧
      lineBare (strD "def new_fn()") ∈ write_updates_lines (strD "TS") []
        (some [strD "+++ b/a.py", strD "+def new_fn():"]) none :=
  c8_bare_signature [] (strD "TS") none (by simp)

end FunctionWiki
